import Mathlib

/-!
# Verification of `fix-revenue.py`

The repository consists of one script, `src/fix-revenue.py`:

```python
with open('src/components/Goals.tsx', 'r', encoding='utf-8') as f:
    content = f.read()
old_pattern = r'\$\{\(goal as RevenueGoal\)\.currentAmount\}'
new_pattern = r'${progress.currentValue.toFixed(2)}'
content = re.sub(old_pattern, new_pattern, content)
with open('src/components/Goals.tsx', 'w', encoding='utf-8') as f:
    f.write(content)
print("Fixed!")
```

We embed the script shallowly. File contents are `List Char` (the script reads
the whole file as one decoded string). The regex pattern escapes every one of
its special characters, so the compiled regex matches exactly one literal
38-character string, and the replacement template contains no backslash, so
Python's `re.sub` inserts it verbatim; hence `re.sub` here is leftmost,
non-overlapping literal substring replacement, which we define below as
`subst`. The surrounding file I/O and error propagation (the script installs
no exception handler) are modelled by `runScript` over an abstract
`FileState`.
-/

/-- The literal string the escaped regex on line 10 of `fix-revenue.py`
matches: `${(goal as RevenueGoal).currentAmount}` (38 characters). -/
def oldPattern : List Char :=
  "$\x7b(goal as RevenueGoal).currentAmount\x7d".data

/-- The replacement string on line 11 of `fix-revenue.py`:
`${progress.currentValue.toFixed(2)}` (35 characters). -/
def newPattern : List Char :=
  "$\x7bprogress.currentValue.toFixed(2)\x7d".data

/-- One step of Python's `re.sub` scan for a literal (fully escaped) pattern:
scan left to right; at each position, if the pattern starts here, emit the
replacement and resume after the matched text, otherwise copy one character.
`fuel` is an upper bound on the number of scan steps; every step consumes at
least one character of the input, so `fuel = s.length` always suffices (the
wrapper `subst` below supplies exactly that), and the `fuel = 0` fallback is
never reached from the wrapper. -/
def substF (pat rep : List Char) : Nat → List Char → List Char
  | 0, s => s
  | fuel + 1, s =>
    match s with
    | [] => []
    | c :: cs =>
      if pat.isPrefixOf (c :: cs) then
        rep ++ substF pat rep fuel (cs.drop (pat.length - 1))
      else
        c :: substF pat rep fuel cs

/-- `re.sub(pat, rep, s)` for a literal pattern and a literal (backslash-free)
replacement: replace every non-overlapping occurrence of `pat` in `s` by
`rep`, scanning left to right. -/
def subst (pat rep s : List Char) : List Char :=
  substF pat rep s.length s

/-- Fuelled occurrence counter: the number of matches the scan of `substF`
replaces, i.e. the number of leftmost non-overlapping occurrences of `pat`. -/
def countF (pat : List Char) : Nat → List Char → Nat
  | 0, _ => 0
  | fuel + 1, s =>
    match s with
    | [] => 0
    | c :: cs =>
      if pat.isPrefixOf (c :: cs) then
        1 + countF pat fuel (cs.drop (pat.length - 1))
      else
        countF pat fuel cs

/-- The number of non-overlapping occurrences of `pat` in `s`, counted the
way `re.sub` finds matches (leftmost, non-overlapping). -/
def countOccs (pat s : List Char) : Nat :=
  countF pat s.length s

/-- Abstract state of the target file `src/components/Goals.tsx` together
with the access rights the script needs.  `content` is the decoded text of
the file; `bytesUtf8` records whether the on-disk bytes decode as UTF-8
(when it is `false` the `content` field is irrelevant). -/
structure FileState where
  present : Bool
  readable : Bool
  writable : Bool
  bytesUtf8 : Bool
  content : List Char
deriving DecidableEq, Repr

/-- The exceptions the interpreter can raise on the script's two `open`
calls and the read: the script contains no `try`/`except`, so each of these
propagates and terminates the process. -/
inductive PyError where
  | fileNotFound
  | permissionDenied
  | unicodeDecodeError
deriving DecidableEq, Repr

/-- Outcome of one run of the script: either it finishes normally, leaving a
final file state and the list of lines printed to stdout, or an exception
propagates out of the program (no handler exists), leaving the file state as
it was at the moment the exception was raised. -/
inductive RunOutcome where
  | success (fs : FileState) (stdout : List String)
  | uncaughtError (e : PyError) (fs : FileState)
deriving DecidableEq, Repr

/-- Process exit status: Python exits with 0 on normal completion and with
status 1 (printing a traceback) on an uncaught exception. -/
def exitCode : RunOutcome → Nat
  | .success _ _ => 0
  | .uncaughtError _ _ => 1

/-- The whole script, line by line: open for reading (raises
`FileNotFoundError` if the file is absent, `PermissionError` if unreadable),
read and decode (raises `UnicodeDecodeError` on invalid UTF-8), apply the
substitution in memory, open the same path for writing (raises
`PermissionError` if unwritable; only then is the file truncated and
rewritten), and print `Fixed!`.  Every error leaves the file as it was,
because the write handle is opened only after read and substitution
succeed. -/
def runScript (fs : FileState) : RunOutcome :=
  if fs.present = false then .uncaughtError .fileNotFound fs
  else if fs.readable = false then .uncaughtError .permissionDenied fs
  else if fs.bytesUtf8 = false then .uncaughtError .unicodeDecodeError fs
  else if fs.writable = false then .uncaughtError .permissionDenied fs
  else
    .success { fs with content := subst oldPattern newPattern fs.content }
      ["Fixed!"]

/-- A token of the source regex `\$\{\(goal as RevenueGoal\)\.currentAmount\}`:
either a backslash-escaped character (`\$`, `\{`, `\(`, `\)`, `\.`, `\}`) or
an ordinary literal character (letters and spaces; none of them is a regex
metacharacter). -/
inductive ReToken where
  | esc (c : Char)
  | lit (c : Char)
deriving DecidableEq, Repr

/-- The character a token stands for. -/
def ReToken.char : ReToken → Char
  | .esc c => c
  | .lit c => c

/-- Semantics of one token: an escaped metacharacter matches exactly that
character, and a literal non-metacharacter matches exactly itself. -/
def tokMatches : ReToken → Char → Prop
  | .esc c, d => d = c
  | .lit c, d => d = c

/-- Semantics of a token-sequence regex (the source pattern has no
alternation, repetition or classes — it is a plain concatenation of
single-character atoms): the word is matched atom by atom. -/
def reMatches : List ReToken → List Char → Prop
  | [], w => w = []
  | t :: ts, w => ∃ c w', w = c :: w' ∧ tokMatches t c ∧ reMatches ts w'

/-- The token sequence of the regex literal on line 10 of the source,
`r'\$\{\(goal as RevenueGoal\)\.currentAmount\}'`. -/
def oldRegex : List ReToken :=
  [.esc '$', .esc '\x7b', .esc '(',
   .lit 'g', .lit 'o', .lit 'a', .lit 'l', .lit ' ',
   .lit 'a', .lit 's', .lit ' ',
   .lit 'R', .lit 'e', .lit 'v', .lit 'e', .lit 'n', .lit 'u', .lit 'e',
   .lit 'G', .lit 'o', .lit 'a', .lit 'l',
   .esc ')', .esc '.',
   .lit 'c', .lit 'u', .lit 'r', .lit 'r', .lit 'e', .lit 'n', .lit 't',
   .lit 'A', .lit 'm', .lit 'o', .lit 'u', .lit 'n', .lit 't',
   .esc '\x7d']

/-- Python's `re.sub` scans the replacement template for backslash escapes
(group references `\1`, `\g<...>` and character escapes); every character
other than a backslash is copied verbatim.  A template with no backslash
therefore expands to itself whatever the captured groups are.  Templates
containing a backslash are outside what this development needs and are left
unmodelled (`none`). -/
def expandTemplate (t : List Char) (_groups : List (List Char)) :
    Option (List Char) :=
  if '\\' ∈ t then none else some t

/-- Specification-level description of one `re.sub` pass with literal
pattern `pat` and literal replacement `rep`: the output is the input with
each leftmost non-overlapping match of `pat` replaced, in place, by `rep`,
and every character outside the matched regions unchanged.
`more a s t` records one match: the text `a` before it contains no match
start (no occurrence of `pat` begins strictly before position `a.length`,
i.e. `pat` is not an infix of `(a ++ pat).dropLast`), the match itself is
replaced by `rep`, and the remainder `s` is rewritten recursively. -/
inductive Replaced (pat rep : List Char) : List Char → List Char → Prop
  | last (s : List Char) : ¬ pat <:+: s → Replaced pat rep s s
  | more (a s t : List Char) :
      ¬ pat <:+: (a ++ pat).dropLast →
      Replaced pat rep s t →
      Replaced pat rep (a ++ pat ++ s) (a ++ rep ++ t)

example : oldPattern.length = 38 := by decide
example : newPattern.length = 35 := by decide
example : subst oldPattern newPattern oldPattern = newPattern := by decide
example : subst oldPattern newPattern "abc".data = "abc".data := by decide

/-! ## Basic facts about the fuelled scan -/

theorem substF_nil (pat rep : List Char) (f : Nat) : substF pat rep f [] = [] := by
  cases f <;> rfl

theorem substF_cons_pos (pat rep : List Char) (f : Nat) {c : Char} {cs : List Char}
    (h : pat.isPrefixOf (c :: cs)) :
    substF pat rep (f + 1) (c :: cs)
      = rep ++ substF pat rep f (cs.drop (pat.length - 1)) := by
  simp [substF, h]

theorem substF_cons_neg (pat rep : List Char) (f : Nat) {c : Char} {cs : List Char}
    (h : ¬ pat.isPrefixOf (c :: cs)) :
    substF pat rep (f + 1) (c :: cs) = c :: substF pat rep f cs := by
  simp [substF, h]

theorem countF_nil (pat : List Char) (f : Nat) : countF pat f [] = 0 := by
  cases f <;> rfl

theorem countF_cons_pos (pat : List Char) (f : Nat) {c : Char} {cs : List Char}
    (h : pat.isPrefixOf (c :: cs)) :
    countF pat (f + 1) (c :: cs)
      = 1 + countF pat f (cs.drop (pat.length - 1)) := by
  simp [countF, h]

theorem countF_cons_neg (pat : List Char) (f : Nat) {c : Char} {cs : List Char}
    (h : ¬ pat.isPrefixOf (c :: cs)) :
    countF pat (f + 1) (c :: cs) = countF pat f cs := by
  simp [countF, h]

/-- The fuel does not matter as long as it dominates the input length:
every scan step consumes at least one input character. -/
theorem substF_fuel (pat rep : List Char) :
    ∀ f₁ f₂ s, s.length ≤ f₁ → s.length ≤ f₂ →
      substF pat rep f₁ s = substF pat rep f₂ s := by
  intro f₁
  induction f₁ with
  | zero =>
    intro f₂ s h₁ _
    have hs : s = [] := List.length_eq_zero.mp (Nat.le_zero.mp h₁)
    subst hs
    simp [substF_nil]
  | succ f ih =>
    intro f₂ s h₁ h₂
    cases s with
    | nil => simp [substF_nil]
    | cons c cs =>
      cases f₂ with
      | zero => simp at h₂
      | succ f' =>
        by_cases hm : pat.isPrefixOf (c :: cs)
        · rw [substF_cons_pos pat rep f hm, substF_cons_pos pat rep f' hm]
          have hd : (cs.drop (pat.length - 1)).length ≤ cs.length := by
            simp [List.length_drop]
          have hcs : cs.length ≤ f := by simp at h₁; omega
          have hcs' : cs.length ≤ f' := by simp at h₂; omega
          rw [ih f' _ (le_trans hd hcs) (le_trans hd hcs')]
        · rw [substF_cons_neg pat rep f hm, substF_cons_neg pat rep f' hm]
          have hcs : cs.length ≤ f := by simp at h₁; omega
          have hcs' : cs.length ≤ f' := by simp at h₂; omega
          rw [ih f' cs hcs hcs']

theorem countF_fuel (pat : List Char) :
    ∀ f₁ f₂ s, s.length ≤ f₁ → s.length ≤ f₂ →
      countF pat f₁ s = countF pat f₂ s := by
  intro f₁
  induction f₁ with
  | zero =>
    intro f₂ s h₁ _
    have hs : s = [] := List.length_eq_zero.mp (Nat.le_zero.mp h₁)
    subst hs
    simp [countF_nil]
  | succ f ih =>
    intro f₂ s h₁ h₂
    cases s with
    | nil => simp [countF_nil]
    | cons c cs =>
      cases f₂ with
      | zero => simp at h₂
      | succ f' =>
        by_cases hm : pat.isPrefixOf (c :: cs)
        · rw [countF_cons_pos pat f hm, countF_cons_pos pat f' hm]
          have hd : (cs.drop (pat.length - 1)).length ≤ cs.length := by
            simp [List.length_drop]
          have hcs : cs.length ≤ f := by simp at h₁; omega
          have hcs' : cs.length ≤ f' := by simp at h₂; omega
          rw [ih f' _ (le_trans hd hcs) (le_trans hd hcs')]
        · rw [countF_cons_neg pat f hm, countF_cons_neg pat f' hm]
          have hcs : cs.length ≤ f := by simp at h₁; omega
          have hcs' : cs.length ≤ f' := by simp at h₂; omega
          rw [ih f' cs hcs hcs']

theorem subst_eq_substF (pat rep : List Char) {f : Nat} {s : List Char}
    (h : s.length ≤ f) : subst pat rep s = substF pat rep f s :=
  substF_fuel pat rep s.length f s le_rfl h

theorem countOccs_eq_countF (pat : List Char) {f : Nat} {s : List Char}
    (h : s.length ≤ f) : countOccs pat s = countF pat f s :=
  countF_fuel pat s.length f s le_rfl h

/-- Scan-step equations lifted to the length-fuelled wrappers. -/
theorem subst_cons_pos (pat rep : List Char) {c : Char} {cs : List Char}
    (h : pat.isPrefixOf (c :: cs)) :
    subst pat rep (c :: cs) = rep ++ subst pat rep (cs.drop (pat.length - 1)) := by
  have hd : (cs.drop (pat.length - 1)).length ≤ cs.length := by
    simp [List.length_drop]
  rw [subst_eq_substF pat rep (le_refl (c :: cs).length)]
  show substF pat rep (cs.length + 1) (c :: cs) = _
  rw [substF_cons_pos pat rep cs.length h,
    ← subst_eq_substF pat rep hd]

theorem subst_cons_neg (pat rep : List Char) {c : Char} {cs : List Char}
    (h : ¬ pat.isPrefixOf (c :: cs)) :
    subst pat rep (c :: cs) = c :: subst pat rep cs := by
  rw [subst_eq_substF pat rep (le_refl (c :: cs).length)]
  show substF pat rep (cs.length + 1) (c :: cs) = _
  rw [substF_cons_neg pat rep cs.length h]
  rfl

theorem countOccs_cons_pos (pat : List Char) {c : Char} {cs : List Char}
    (h : pat.isPrefixOf (c :: cs)) :
    countOccs pat (c :: cs) = 1 + countOccs pat (cs.drop (pat.length - 1)) := by
  have hd : (cs.drop (pat.length - 1)).length ≤ cs.length := by
    simp [List.length_drop]
  rw [countOccs_eq_countF pat (le_refl (c :: cs).length)]
  show countF pat (cs.length + 1) (c :: cs) = _
  rw [countF_cons_pos pat cs.length h, ← countOccs_eq_countF pat hd]

theorem countOccs_cons_neg (pat : List Char) {c : Char} {cs : List Char}
    (h : ¬ pat.isPrefixOf (c :: cs)) :
    countOccs pat (c :: cs) = countOccs pat cs := by
  rw [countOccs_eq_countF pat (le_refl (c :: cs).length)]
  show countF pat (cs.length + 1) (c :: cs) = _
  rw [countF_cons_neg pat cs.length h]
  exact (countOccs_eq_countF pat le_rfl).symm

/-! ## Structural lemmas about the scan -/

/-- If the pattern occurs nowhere in `s`, the scan copies `s` unchanged. -/
theorem substF_of_no_occurrence (pat rep : List Char) :
    ∀ f s, ¬ pat <:+: s → substF pat rep f s = s := by
  intro f
  induction f with
  | zero => intro s _; rfl
  | succ f ih =>
    intro s hs
    cases s with
    | nil => rfl
    | cons c cs =>
      by_cases hm : pat.isPrefixOf (c :: cs)
      · exact absurd (List.isPrefixOf_iff_prefix.mp hm).isInfix hs
      · rw [substF_cons_neg pat rep f hm,
          ih cs (fun h => hs (List.infix_cons h))]

theorem subst_of_no_occurrence (pat rep : List Char) {s : List Char}
    (hs : ¬ pat <:+: s) : subst pat rep s = s :=
  substF_of_no_occurrence pat rep s.length s hs

/-- If the pattern occurs nowhere in `s`, the scan counts zero matches. -/
theorem countF_of_no_occurrence (pat : List Char) :
    ∀ f s, ¬ pat <:+: s → countF pat f s = 0 := by
  intro f
  induction f with
  | zero => intro s _; rfl
  | succ f ih =>
    intro s hs
    cases s with
    | nil => rfl
    | cons c cs =>
      by_cases hm : pat.isPrefixOf (c :: cs)
      · exact absurd (List.isPrefixOf_iff_prefix.mp hm).isInfix hs
      · rw [countF_cons_neg pat f hm, ih cs (fun h => hs (List.infix_cons h))]

theorem countOccs_of_no_occurrence (pat : List Char) {s : List Char}
    (hs : ¬ pat <:+: s) : countOccs pat s = 0 :=
  countF_of_no_occurrence pat s.length s hs

/-- If the scan counts zero matches, it copies the input unchanged. -/
theorem substF_of_countF_zero (pat rep : List Char) :
    ∀ f s, countF pat f s = 0 → substF pat rep f s = s := by
  intro f
  induction f with
  | zero => intro s _; rfl
  | succ f ih =>
    intro s hs
    cases s with
    | nil => rfl
    | cons c cs =>
      by_cases hm : pat.isPrefixOf (c :: cs)
      · rw [countF_cons_pos pat f hm] at hs
        omega
      · rw [countF_cons_neg pat f hm] at hs
        rw [substF_cons_neg pat rep f hm, ih cs hs]

theorem subst_of_countOccs_zero (pat rep : List Char) {s : List Char}
    (hs : countOccs pat s = 0) : subst pat rep s = s :=
  substF_of_countF_zero pat rep s.length s hs

/-- An element of a list at a positive position is an element of its tail. -/
theorem getElem_mem_tail (l : List Char) (k : Nat) (h1 : 1 ≤ k)
    (h2 : k < l.length) : l[k] ∈ l.tail := by
  have hmem : l[k] ∈ l.drop k := by
    rw [List.drop_eq_getElem_cons h2]
    exact List.mem_cons_self _ _
  have hdd : (l.drop 1).drop (k - 1) = l.drop k := by
    rw [List.drop_drop]
    congr 1
    omega
  have hmem2 : l[k] ∈ (l.drop 1).drop (k - 1) := by rw [hdd]; exact hmem
  rw [← List.drop_one]
  exact List.mem_of_mem_drop hmem2

/-- An occurrence of `pat` inside `r ++ w` either starts inside `r` (at some
position `j < r.length`, so `pat` is a prefix of `r.drop j ++ w`) or lies
wholly inside `w`. -/
theorem infix_append_split (pat : List Char) :
    ∀ (r w : List Char), pat <:+: (r ++ w) →
      (∃ j, j < r.length ∧ pat <+: (r.drop j ++ w)) ∨ pat <:+: w := by
  intro r
  induction r with
  | nil => intro w h; exact Or.inr (by simpa using h)
  | cons c r' ih =>
    intro w h
    rcases List.infix_cons_iff.mp h with hp | hi
    · exact Or.inl ⟨0, by simp, by simpa using hp⟩
    · rcases ih w hi with ⟨j, hj, hpre⟩ | hw
      · exact Or.inl ⟨j + 1, by simpa using Nat.succ_lt_succ hj,
          by simpa [List.drop_succ_cons] using hpre⟩
      · exact Or.inr hw

/-! ## Concrete facts about the pattern and replacement

The one character `$` anchors every occurrence of either string: it occurs
exactly once in each, at position 0.  Together with the mismatch of the two
strings at position 2 this rules out any occurrence of the pattern that
touches substituted text. -/

theorem oldPattern_ne_nil : oldPattern ≠ [] := by decide

theorem oldPattern_eq_cons : oldPattern = '$' :: oldPattern.tail := rfl

theorem newPattern_eq_cons : newPattern = '$' :: newPattern.tail := rfl

theorem dollar_not_mem_oldPattern_tail : '$' ∉ oldPattern.tail := by decide

theorem dollar_not_mem_newPattern_tail : '$' ∉ newPattern.tail := by decide

theorem take_three_ne : oldPattern.take 3 ≠ newPattern.take 3 := by decide

/-- If a proper suffix `oldPattern.drop k` (`1 ≤ k < 38`) of the pattern is a
prefix of the scan's output, then it is already a prefix of the scan's input:
the suffix contains no `$`, so it cannot reach into an inserted copy of the
replacement (which starts with `$`), hence it is copied text. -/
theorem drop_prefix_substF :
    ∀ f s k, s.length ≤ f → 1 ≤ k → k < oldPattern.length →
      oldPattern.drop k <+: substF oldPattern newPattern f s →
      oldPattern.drop k <+: s := by
  intro f
  induction f with
  | zero =>
    intro s k h1 _ _ hpre
    have hs : s = [] := List.length_eq_zero.mp (Nat.le_zero.mp h1)
    subst hs
    exact hpre
  | succ f ih =>
    intro s k h1 hk1 hk2 hpre
    cases s with
    | nil =>
      rw [substF_nil] at hpre
      exact hpre
    | cons c cs =>
      have hcs : cs.length ≤ f := by simp at h1; omega
      by_cases hm : oldPattern.isPrefixOf (c :: cs)
      · rw [substF_cons_pos _ _ _ hm] at hpre
        rw [List.drop_eq_getElem_cons hk2, newPattern_eq_cons,
          List.cons_append] at hpre
        rcases List.cons_prefix_cons.mp hpre with ⟨hhead, -⟩
        have hmem : oldPattern[k] ∈ oldPattern.tail := getElem_mem_tail _ k hk1 hk2
        rw [hhead] at hmem
        exact absurd hmem dollar_not_mem_oldPattern_tail
      · rw [substF_cons_neg _ _ _ hm] at hpre
        rw [List.drop_eq_getElem_cons hk2] at hpre
        rcases List.cons_prefix_cons.mp hpre with ⟨hhead, htail⟩
        by_cases hk3 : k + 1 < oldPattern.length
        · have hrec := ih cs (k + 1) hcs (by omega) hk3 htail
          rw [List.drop_eq_getElem_cons hk2]
          exact List.cons_prefix_cons.mpr ⟨hhead, hrec⟩
        · have hkeq : k + 1 = oldPattern.length := by omega
          rw [List.drop_eq_getElem_cons hk2]
          have hnil : oldPattern.drop (k + 1) = [] := by
            rw [hkeq, List.drop_length]
          rw [hnil]
          exact List.cons_prefix_cons.mpr ⟨hhead, List.nil_prefix⟩

/-- Main structural lemma: the pattern does not occur anywhere in the scan's
output.  Existing matches are all replaced, and no new occurrence can be
created: an occurrence starting at an inserted replacement would need the
pattern and the replacement to agree on their first three characters (they
differ at position 2), an occurrence starting strictly inside one would need
a second `$` in the replacement, and an occurrence starting in copied text
either lay in the input (where the scan would have replaced it) or would
need a second `$` in the pattern. -/
theorem not_infix_substF :
    ∀ f s, s.length ≤ f → ¬ oldPattern <:+: substF oldPattern newPattern f s := by
  intro f
  induction f with
  | zero =>
    intro s h1 h
    have hs : s = [] := List.length_eq_zero.mp (Nat.le_zero.mp h1)
    subst hs
    exact absurd (List.infix_nil.mp h) oldPattern_ne_nil
  | succ f ih =>
    intro s h1 h
    cases s with
    | nil =>
      rw [substF_nil] at h
      exact absurd (List.infix_nil.mp h) oldPattern_ne_nil
    | cons c cs =>
      have hcs : cs.length ≤ f := by simp at h1; omega
      by_cases hm : oldPattern.isPrefixOf (c :: cs)
      · rw [substF_cons_pos _ _ _ hm] at h
        rcases infix_append_split oldPattern newPattern _ h with ⟨j, hj, hpre⟩ | hin
        · cases j with
          | zero =>
            simp only [List.drop_zero] at hpre
            rcases hpre with ⟨t, ht⟩
            have h3 := congrArg (List.take 3) ht
            rw [@List.take_append_of_le_length _ oldPattern t 3 (by decide),
              @List.take_append_of_le_length _ newPattern _ 3 (by decide)] at h3
            exact absurd h3 take_three_ne
          | succ j' =>
            have hj' : j' + 1 < newPattern.length := hj
            rw [List.drop_eq_getElem_cons hj', oldPattern_eq_cons] at hpre
            rcases List.cons_prefix_cons.mp hpre with ⟨hhead, -⟩
            have hmem : newPattern[j' + 1] ∈ newPattern.tail :=
              getElem_mem_tail _ (j' + 1) (by omega) hj'
            rw [← hhead] at hmem
            exact absurd hmem dollar_not_mem_newPattern_tail
        · exact ih _ (le_trans (by simp [List.length_drop]) hcs) hin
      · rw [substF_cons_neg _ _ _ hm] at h
        rcases List.infix_cons_iff.mp h with hp | hi
        · rw [oldPattern_eq_cons] at hp
          rcases List.cons_prefix_cons.mp hp with ⟨hhead, htail⟩
          have htail' : oldPattern.drop 1 <+: substF oldPattern newPattern f cs := by
            rw [List.drop_one]
            exact htail
          have hrec := drop_prefix_substF f cs 1 hcs le_rfl (by decide) htail'
          apply hm
          apply List.isPrefixOf_iff_prefix.mpr
          rw [oldPattern_eq_cons]
          refine List.cons_prefix_cons.mpr ⟨hhead, ?_⟩
          rw [← List.drop_one]
          exact hrec
        · exact ih cs hcs hi

/-- The pattern does not occur in the output of `subst`. -/
theorem subst_no_pattern (s : List Char) :
    ¬ oldPattern <:+: subst oldPattern newPattern s :=
  not_infix_substF s.length s le_rfl

/-! ## Length accounting -/

/-- Each of the `countF` matches trades 38 pattern characters for 35
replacement characters; all other characters are copied. -/
theorem substF_length :
    ∀ f s, s.length ≤ f →
      (substF oldPattern newPattern f s).length + countF oldPattern f s * 38
        = s.length + countF oldPattern f s * 35 := by
  intro f
  induction f with
  | zero =>
    intro s h1
    have hs : s = [] := List.length_eq_zero.mp (Nat.le_zero.mp h1)
    subst hs
    simp [countF_nil, substF_nil]
  | succ f ih =>
    intro s h1
    cases s with
    | nil => simp [substF_nil, countF_nil]
    | cons c cs =>
      have hcs : cs.length ≤ f := by simp at h1; omega
      by_cases hm : oldPattern.isPrefixOf (c :: cs)
      · rw [substF_cons_pos _ _ _ hm, countF_cons_pos _ _ hm]
        have hlen : oldPattern.length ≤ cs.length + 1 := by
          have hp := (List.isPrefixOf_iff_prefix.mp hm).length_le
          simpa using hp
        have hPl : oldPattern.length = 38 := by decide
        have hRl : newPattern.length = 35 := by decide
        have ihd := ih (cs.drop (oldPattern.length - 1))
          (le_trans (by simp [List.length_drop]) hcs)
        have hdl : (cs.drop (oldPattern.length - 1)).length
            = cs.length - 37 := by
          simp [List.length_drop, hPl]
        rw [hdl] at ihd
        simp only [List.length_append, List.length_cons, hRl]
        rw [hPl] at hlen
        omega
      · rw [substF_cons_neg _ _ _ hm, countF_cons_neg _ _ hm]
        have ihc := ih cs hcs
        simp only [List.length_cons]
        omega

/-! ## Counting inserted replacements -/

theorem countOccs_newPattern_append (T : List Char) :
    countOccs newPattern (newPattern ++ T) = 1 + countOccs newPattern T := by
  have hshape : newPattern ++ T = '$' :: (newPattern.tail ++ T) := rfl
  have hm : newPattern.isPrefixOf ('$' :: (newPattern.tail ++ T)) := by
    rw [← hshape]
    exact List.isPrefixOf_iff_prefix.mpr (List.prefix_append _ _)
  rw [hshape, countOccs_cons_pos newPattern hm]
  congr 1

/-- A block of text containing no `$` contributes no match of the
replacement string (every occurrence of `newPattern` starts with `$`). -/
theorem countOccs_nodollar_append :
    ∀ (u : List Char), '$' ∉ u →
      ∀ T, countOccs newPattern (u ++ T) = countOccs newPattern T := by
  intro u
  induction u with
  | nil => intro _ T; simp
  | cons a u' ih =>
    intro hu T
    have ha : a ≠ '$' := fun h => hu (h ▸ List.mem_cons_self a u')
    have hnot : ¬ newPattern.isPrefixOf (a :: (u' ++ T)) := by
      intro hp
      have hp' := List.isPrefixOf_iff_prefix.mp hp
      rw [newPattern_eq_cons] at hp'
      rcases List.cons_prefix_cons.mp hp' with ⟨hh, -⟩
      exact ha hh.symm
    rw [List.cons_append, countOccs_cons_neg newPattern hnot,
      ih (fun h => hu (List.mem_cons_of_mem _ h)) T]

/-- Prepending one character cannot decrease the number of occurrences of
the replacement string. -/
theorem countOccs_newPattern_cons_ge (c : Char) (X : List Char) :
    countOccs newPattern X ≤ countOccs newPattern (c :: X) := by
  by_cases hm : newPattern.isPrefixOf (c :: X)
  · obtain ⟨Y, hY⟩ := List.isPrefixOf_iff_prefix.mp hm
    have hY' : '$' :: (newPattern.tail ++ Y) = c :: X := by
      rw [← List.cons_append, ← newPattern_eq_cons]
      exact hY
    have hc : '$' = c := by injection hY'
    have hX : newPattern.tail ++ Y = X := by injection hY'
    rw [← hY, countOccs_newPattern_append, ← hX,
      countOccs_nodollar_append newPattern.tail dollar_not_mem_newPattern_tail Y]
    omega
  · rw [countOccs_cons_neg newPattern hm]

/-- Every match the scan replaces contributes (at least) one occurrence of
the replacement string to the output. -/
theorem countF_le_countOccs_substF :
    ∀ f s, s.length ≤ f →
      countF oldPattern f s
        ≤ countOccs newPattern (substF oldPattern newPattern f s) := by
  intro f
  induction f with
  | zero =>
    intro s h1
    have hs : s = [] := List.length_eq_zero.mp (Nat.le_zero.mp h1)
    subst hs
    simp [countF_nil]
  | succ f ih =>
    intro s h1
    cases s with
    | nil => simp [substF_nil, countF_nil]
    | cons c cs =>
      have hcs : cs.length ≤ f := by simp at h1; omega
      by_cases hm : oldPattern.isPrefixOf (c :: cs)
      · rw [substF_cons_pos _ _ _ hm, countF_cons_pos _ _ hm,
          countOccs_newPattern_append]
        have hrec := ih (cs.drop (oldPattern.length - 1))
          (le_trans (by simp [List.length_drop]) hcs)
        omega
      · rw [substF_cons_neg _ _ _ hm, countF_cons_neg _ _ hm]
        exact le_trans (ih cs hcs) (countOccs_newPattern_cons_ge c _)

/-! ## The scan realises the in-place replacement specification -/

/-- Skipping one unmatched character preserves the `Replaced`
decomposition. -/
theorem replaced_cons (pat rep : List Char) (hpat : pat ≠ []) {c : Char}
    {cs t : List Char} (hpre : ¬ pat <+: (c :: cs))
    (hrep : Replaced pat rep cs t) :
    Replaced pat rep (c :: cs) (c :: t) := by
  cases hrep with
  | last s hs =>
    apply Replaced.last
    intro h
    rcases List.infix_cons_iff.mp h with hp | hi
    · exact hpre hp
    · exact hs hi
  | more a s t' hside hrec =>
    have hshape : c :: (a ++ pat ++ s) = (c :: a) ++ pat ++ s := by simp
    have hshape' : c :: (a ++ rep ++ t') = (c :: a) ++ rep ++ t' := by simp
    rw [hshape, hshape']
    refine Replaced.more (c :: a) s t' ?_ hrec
    intro h
    have hne : a ++ pat ≠ [] := List.append_ne_nil_of_right_ne_nil a hpat
    have hdl : ((c :: a) ++ pat).dropLast = c :: (a ++ pat).dropLast := by
      rw [List.cons_append, List.dropLast_cons_of_ne_nil hne]
    rw [hdl] at h
    rcases List.infix_cons_iff.mp h with hp | hi
    · apply hpre
      apply hp.trans
      refine List.cons_prefix_cons.mpr ⟨rfl, ?_⟩
      exact (List.dropLast_prefix (a ++ pat)).trans (List.prefix_append _ _)
    · exact hside hi

/-- The scan's output is the input with every leftmost non-overlapping match
replaced in place and all other characters unchanged. -/
theorem replaced_substF :
    ∀ f s, s.length ≤ f →
      Replaced oldPattern newPattern s (substF oldPattern newPattern f s) := by
  intro f
  induction f with
  | zero =>
    intro s h1
    have hs : s = [] := List.length_eq_zero.mp (Nat.le_zero.mp h1)
    subst hs
    exact Replaced.last [] (fun h => oldPattern_ne_nil (List.infix_nil.mp h))
  | succ f ih =>
    intro s h1
    cases s with
    | nil =>
      rw [substF_nil]
      exact Replaced.last [] (fun h => oldPattern_ne_nil (List.infix_nil.mp h))
    | cons c cs =>
      have hcs : cs.length ≤ f := by simp at h1; omega
      by_cases hm : oldPattern.isPrefixOf (c :: cs)
      · rw [substF_cons_pos _ _ _ hm]
        obtain ⟨t, ht⟩ := List.isPrefixOf_iff_prefix.mp hm
        have ht' : '$' :: (oldPattern.tail ++ t) = c :: cs := by
          rw [← List.cons_append, ← oldPattern_eq_cons]
          exact ht
        have hc : '$' = c := by injection ht'
        have hcs' : oldPattern.tail ++ t = cs := by injection ht'
        have hdrop : cs.drop (oldPattern.length - 1) = t := by
          rw [← hcs']
          exact List.drop_left' (by decide)
        rw [hdrop]
        have hside : ¬ oldPattern <:+: (([] : List Char) ++ oldPattern).dropLast := by
          intro h
          have hle := h.length_le
          have h37 : (([] : List Char) ++ oldPattern).dropLast.length = 37 := by decide
          rw [h37] at hle
          have h38 : oldPattern.length = 38 := by decide
          omega
        have hrec := Replaced.more [] t (substF oldPattern newPattern f t)
          hside (ih t (le_trans (by rw [← hdrop]; simp [List.length_drop]) hcs))
        have hin : ([] : List Char) ++ oldPattern ++ t = c :: cs := by
          simpa using ht
        rw [hin] at hrec
        simpa using hrec
      · rw [substF_cons_neg _ _ _ hm]
        exact replaced_cons oldPattern newPattern oldPattern_ne_nil
          (fun h => hm (List.isPrefixOf_iff_prefix.mpr h)) (ih cs hcs)

/-- `subst` realises the in-place replacement specification. -/
theorem replaced_subst (s : List Char) :
    Replaced oldPattern newPattern s (subst oldPattern newPattern s) :=
  replaced_substF s.length s le_rfl

/-! ## The regex is the literal -/

/-- A concatenation of single-character atoms matches exactly one word: the
sequence of the atoms' characters. -/
theorem reMatches_iff_eq :
    ∀ (ts : List ReToken) (w : List Char),
      reMatches ts w ↔ w = ts.map ReToken.char := by
  intro ts
  induction ts with
  | nil => intro w; simp [reMatches]
  | cons t ts ih =>
    intro w
    constructor
    · rintro ⟨c, w', rfl, htok, hrest⟩
      have hc : c = t.char := by cases t <;> exact htok
      rw [List.map_cons, hc, (ih w').mp hrest]
    · rintro rfl
      exact ⟨t.char, ts.map ReToken.char, rfl, by cases t <;> rfl,
        (ih _).mpr rfl⟩

/-! ## The claims -/

/-- C1 — counterexample.  The claim asserts that a content with N pattern
occurrences (N ≥ 1) is rewritten to a content with exactly N occurrences of
the replacement.  Take the content `newPattern ++ oldPattern`: it contains
the pattern once (N = 1), and `apply` rewrites it to
`newPattern ++ newPattern`, which contains the replacement twice — the
occurrence that was already present in the input survives alongside the
inserted one. -/
theorem subst_replacement_count_counterexample :
    countOccs oldPattern (newPattern ++ oldPattern) = 1 ∧
    subst oldPattern newPattern (newPattern ++ oldPattern)
      = newPattern ++ newPattern ∧
    countOccs newPattern (newPattern ++ newPattern) = 2 := by
  refine ⟨by decide, by decide, by decide⟩

/-- C1 (amended).  For every content `s` with `N ≥ 1` occurrences of the
pattern, after `apply` the content contains zero occurrences of the pattern;
each of the `N` matches is replaced, at the position of the match it
replaced, by the replacement string, with every character outside the
matched occurrences unchanged (the `Replaced` decomposition); consequently
the output contains at least `N` occurrences of the replacement — but not
necessarily exactly `N`, since occurrences of the replacement already
present in the input survive. -/
theorem subst_replaces_all_occurrences (s : List Char)
    (_h : 1 ≤ countOccs oldPattern s) :
    countOccs oldPattern (subst oldPattern newPattern s) = 0 ∧
    countOccs oldPattern s
      ≤ countOccs newPattern (subst oldPattern newPattern s) ∧
    Replaced oldPattern newPattern s (subst oldPattern newPattern s) :=
  ⟨countOccs_of_no_occurrence _ (subst_no_pattern s),
    countF_le_countOccs_substF s.length s le_rfl,
    replaced_subst s⟩

/-- Witness for C1's amended theorem at the spec's own scenario input
`Revenue: ${(goal as RevenueGoal).currentAmount}`. -/
theorem subst_replaces_all_occurrences_witness :
    1 ≤ countOccs oldPattern ("Revenue: ".data ++ oldPattern) ∧
    (countOccs oldPattern
        (subst oldPattern newPattern ("Revenue: ".data ++ oldPattern)) = 0 ∧
      countOccs oldPattern ("Revenue: ".data ++ oldPattern)
        ≤ countOccs newPattern
            (subst oldPattern newPattern ("Revenue: ".data ++ oldPattern)) ∧
      Replaced oldPattern newPattern ("Revenue: ".data ++ oldPattern)
        (subst oldPattern newPattern ("Revenue: ".data ++ oldPattern))) :=
  ⟨by decide, subst_replaces_all_occurrences _ (by decide)⟩

/-- C2.  For every file content with zero occurrences of the pattern, the
run succeeds and rewrites the file byte-identical to its prior content: the
substitution leaves the content unchanged and the same final state is
written back. -/
theorem runScript_no_match_identity (fs : FileState)
    (hp : fs.present = true) (hr : fs.readable = true)
    (hw : fs.writable = true) (hu : fs.bytesUtf8 = true)
    (h0 : countOccs oldPattern fs.content = 0) :
    runScript fs = .success fs ["Fixed!"] := by
  obtain ⟨p, r, w, u, content⟩ := fs
  simp only at hp hr hw hu h0
  subst hp
  subst hr
  subst hw
  subst hu
  unfold runScript
  simp only [Bool.true_eq_false, if_false]
  rw [show subst oldPattern newPattern content = content from
    subst_of_countOccs_zero _ _ h0]

/-- Witness for C2 at a concrete content without the pattern. -/
theorem runScript_no_match_identity_witness :
    (FileState.mk true true true true "Revenue: 100".data).present = true ∧
    (FileState.mk true true true true "Revenue: 100".data).readable = true ∧
    (FileState.mk true true true true "Revenue: 100".data).writable = true ∧
    (FileState.mk true true true true "Revenue: 100".data).bytesUtf8 = true ∧
    countOccs oldPattern
      (FileState.mk true true true true "Revenue: 100".data).content = 0 ∧
    runScript (FileState.mk true true true true "Revenue: 100".data)
      = .success (FileState.mk true true true true "Revenue: 100".data)
          ["Fixed!"] :=
  ⟨rfl, rfl, rfl, rfl, by decide,
    runScript_no_match_identity _ rfl rfl rfl rfl (by decide)⟩

/-- C3.  Applying the substitution twice yields the same content as applying
it once: after the first pass the pattern no longer occurs
(`subst_no_pattern`), so the second pass copies its input unchanged. -/
theorem subst_idempotent (s : List Char) :
    subst oldPattern newPattern (subst oldPattern newPattern s)
      = subst oldPattern newPattern s :=
  subst_of_no_occurrence _ _ (subst_no_pattern s)

/-- C4.  The fully escaped regex matches exactly the literal 38-character
substring `${(goal as RevenueGoal).currentAmount}` and nothing else, and the
replacement template, containing no backslash, is inserted verbatim — it is
never re-interpreted as a pattern or as group references, whatever groups
the match carries. -/
theorem oldRegex_matches_exactly_literal :
    (∀ w, reMatches oldRegex w ↔ w = oldPattern) ∧
    (∀ groups, expandTemplate newPattern groups = some newPattern) := by
  constructor
  · intro w
    rw [reMatches_iff_eq]
    have hmap : oldRegex.map ReToken.char = oldPattern := by decide
    rw [hmap]
  · intro groups
    unfold expandTemplate
    rw [if_neg (by decide)]

/-- C5.  When the file is missing, unreadable or unwritable, the run ends in
an uncaught propagated exception (no handler exists in the script, nothing
is caught or retried) and the process exits with the non-zero status 1. -/
theorem runScript_access_error_uncaught (fs : FileState)
    (h : fs.present = false ∨ fs.readable = false ∨ fs.writable = false) :
    (∃ e fs', runScript fs = .uncaughtError e fs') ∧
      exitCode (runScript fs) = 1 := by
  obtain ⟨p, r, w, u, content⟩ := fs
  simp only at h
  cases p <;> cases r <;> cases w <;> cases u <;>
    simp_all [runScript, exitCode]

/-- Witness for C5: the target file is absent. -/
theorem runScript_access_error_uncaught_witness :
    ((FileState.mk false true true true []).present = false ∨
      (FileState.mk false true true true []).readable = false ∨
      (FileState.mk false true true true []).writable = false) ∧
    ((∃ e fs', runScript (FileState.mk false true true true [])
        = .uncaughtError e fs') ∧
      exitCode (runScript (FileState.mk false true true true [])) = 1) :=
  ⟨Or.inl rfl, runScript_access_error_uncaught _ (Or.inl rfl)⟩

/-- C6.  Every successful run prints exactly the one fixed line `Fixed!`,
whatever the content and hence whatever the number of matches. -/
theorem runScript_stdout_fixed (fs fs' : FileState) (out : List String)
    (h : runScript fs = .success fs' out) : out = ["Fixed!"] := by
  obtain ⟨p, r, w, u, content⟩ := fs
  cases p <;> cases r <;> cases w <;> cases u <;> simp_all [runScript]

/-- Witness for C6 on a run over empty content (zero matches). -/
theorem runScript_stdout_fixed_witness :
    runScript (FileState.mk true true true true [])
      = .success (FileState.mk true true true true []) ["Fixed!"] ∧
    (["Fixed!"] : List String) = ["Fixed!"] :=
  ⟨by decide, runScript_stdout_fixed (FileState.mk true true true true [])
    (FileState.mk true true true true []) ["Fixed!"] (by decide)⟩

/-- C7.  On the empty file content the run succeeds (no error outcome), the
confirmation is printed, and the content stays empty. -/
theorem runScript_empty_file :
    runScript (FileState.mk true true true true [])
      = .success (FileState.mk true true true true []) ["Fixed!"] ∧
    subst oldPattern newPattern [] = [] := by
  refine ⟨by decide, rfl⟩

/-- C8.  Determinism: the entire run is a pure function of the file state —
two runs from equal contents and equal access rights produce equal outcomes
(final file content and console output alike); nothing else influences the
result. -/
theorem runScript_deterministic (fs₁ fs₂ : FileState)
    (h1 : fs₁.present = fs₂.present) (h2 : fs₁.readable = fs₂.readable)
    (h3 : fs₁.writable = fs₂.writable) (h4 : fs₁.bytesUtf8 = fs₂.bytesUtf8)
    (h5 : fs₁.content = fs₂.content) :
    runScript fs₁ = runScript fs₂ := by
  obtain ⟨p, r, w, u, content⟩ := fs₁
  obtain ⟨p', r', w', u', content'⟩ := fs₂
  simp_all

/-- Witness for C8 on two equal concrete states. -/
theorem runScript_deterministic_witness :
    (FileState.mk true true true true "x".data).present
        = (FileState.mk true true true true "x".data).present ∧
    (FileState.mk true true true true "x".data).readable
        = (FileState.mk true true true true "x".data).readable ∧
    (FileState.mk true true true true "x".data).writable
        = (FileState.mk true true true true "x".data).writable ∧
    (FileState.mk true true true true "x".data).bytesUtf8
        = (FileState.mk true true true true "x".data).bytesUtf8 ∧
    (FileState.mk true true true true "x".data).content
        = (FileState.mk true true true true "x".data).content ∧
    runScript (FileState.mk true true true true "x".data)
        = runScript (FileState.mk true true true true "x".data) :=
  ⟨rfl, rfl, rfl, rfl, rfl,
    runScript_deterministic _ _ rfl rfl rfl rfl rfl⟩

/-- C9.  Atomicity on read failure: if the open-for-reading or the UTF-8
decode fails, the exception propagates with the file state exactly as it
was — the write handle (which would truncate the file) is only opened after
the whole content has been read and transformed. -/
theorem runScript_read_failure_leaves_file (fs : FileState)
    (h : fs.present = false ∨ fs.readable = false ∨ fs.bytesUtf8 = false) :
    ∃ e, runScript fs = .uncaughtError e fs := by
  obtain ⟨p, r, w, u, content⟩ := fs
  simp only at h
  cases p <;> cases r <;> cases w <;> cases u <;> simp_all [runScript]

/-- Witness for C9: the file's bytes are not valid UTF-8. -/
theorem runScript_read_failure_leaves_file_witness :
    ((FileState.mk true true true false []).present = false ∨
      (FileState.mk true true true false []).readable = false ∨
      (FileState.mk true true true false []).bytesUtf8 = false) ∧
    (∃ e, runScript (FileState.mk true true true false [])
        = .uncaughtError e (FileState.mk true true true false [])) :=
  ⟨Or.inr (Or.inr rfl), runScript_read_failure_leaves_file _ (Or.inr (Or.inr rfl))⟩

/-- C10.  Length arithmetic: with `N` the number of pattern occurrences, the
output length satisfies `|out| + N * 38 = |in| + N * 35` (pattern literal 38
characters, replacement 35), i.e. the output shrinks by 3 characters per
match and is never longer than the input. -/
theorem subst_length_change (s : List Char) :
    (subst oldPattern newPattern s).length
        + countOccs oldPattern s * oldPattern.length
      = s.length + countOccs oldPattern s * newPattern.length ∧
    (subst oldPattern newPattern s).length ≤ s.length ∧
    oldPattern.length = 38 ∧ newPattern.length = 35 := by
  have h := substF_length s.length s le_rfl
  have hP : oldPattern.length = 38 := by decide
  have hR : newPattern.length = 35 := by decide
  refine ⟨by rw [hP, hR]; exact h, ?_, hP, hR⟩
  have h1 : (subst oldPattern newPattern s).length
      + countOccs oldPattern s * 38
    = s.length + countOccs oldPattern s * 35 := h
  omega
